import Mathlib

/-!
Verification of the detection-dashboard core of the Michigan mammal
monitoring application: record normalization (`loadDetectionData`), the
filter engine of the main component, the activity/species aggregators and
the geo-clustering pass that builds map points.

Modelling conventions of this shallow embedding:
* JavaScript numbers are modelled exactly: integers as `Int`/`Nat`,
  fractional values as `ℚ`; `NaN` results of the host parsers appear as
  `none` of an `Option`.  The 32-bit wrap of the `<<` operator is made
  explicit with `toInt32`.
* A JavaScript `Date` is observed by the program only through
  `getFullYear`, `getMonth` and `getHours`, so a parsed timestamp keeps
  exactly these components; an Invalid Date is `none`.
* Raw CSV cells are `Option String`: `none` models a column missing from a
  short row (`undefined`).
* JavaScript `Map` objects (insertion ordered) are association lists, and
  `Set` objects are duplicate-free lists in insertion order.
-/

namespace Snapshot

/-- Calendar timestamp as observed by the program: only `getFullYear`,
`getMonth` (0-11) and `getHours` (0-23) are ever read, so only these
components are modelled.  A valid JavaScript `Date` always reports a month
in 0..11 and an hour in 0..23, hence the `Fin` fields. -/
structure DateVal where
  year : Int
  month : Fin 12
  hour : Fin 24
deriving DecidableEq, Repr

/-- Raw CSV row as produced by `Papa.parse` with `header: true` (a mapping
from column name to string cell).  `none` models an absent cell.  The field
`arrayName` models the source column `Array Name` (the Lean name avoids the
space). -/
structure RawRow where
  Year : Option String
  common_name : Option String
  start_time : Option String
  group_size : Option String
  Latitude : Option String
  Longitude : Option String
  Region : Option String
  arrayName : Option String
  sequence_id : Option String
  deployment_id : Option String
deriving DecidableEq, Repr

/-- Normalized detection record (`ProcessedDetection` of `src/types`).
`startTime` is `none` when `new Date(row.start_time)` produced an Invalid
Date; in that case the derived `hour`/`month` fields are `none` as well
(JavaScript would hold `NaN` there). -/
structure ProcessedDetection where
  year : Int
  commonName : String
  startTime : Option DateVal
  groupSize : Int
  latitude : ℚ
  longitude : ℚ
  hour : Option (Fin 24)
  month : Option (Fin 12)
  region : String
  arrayName : String
  sequenceId : String
  deploymentId : String
deriving DecidableEq, Repr

/-- Value of a run of decimal digit characters. -/
def digitsToNat (cs : List Char) : Nat :=
  cs.foldl (fun n c => n * 10 + (c.toNat - 48)) 0

/-- Modelled host primitive `parseInt`: skip leading whitespace, read an
optional sign and then the longest prefix of decimal digits; no digits
means `NaN` (`none`).  Radix prefixes such as `0x` are not modelled (the
data columns hold plain decimal numerals). -/
def jsParseInt (s : String) : Option Int :=
  let t := s.data.dropWhile Char.isWhitespace
  let p : Int × List Char :=
    match t with
    | '-' :: cs => (-1, cs)
    | '+' :: cs => (1, cs)
    | cs => (1, cs)
  let ds := p.2.takeWhile Char.isDigit
  if ds.isEmpty then none
  else some (p.1 * (digitsToNat ds : Int))

/-- Modelled host primitive `parseFloat`: optional sign, decimal digits,
optional fraction after a dot; `none` is `NaN`.  Exponent notation is not
modelled (the coordinate columns hold plain decimals). -/
def jsParseFloat (s : String) : Option ℚ :=
  let t := s.data.dropWhile Char.isWhitespace
  let p : Int × List Char :=
    match t with
    | '-' :: cs => (-1, cs)
    | '+' :: cs => (1, cs)
    | cs => (1, cs)
  let ds := p.2.takeWhile Char.isDigit
  let rest := p.2.drop ds.length
  let fs : List Char :=
    match rest with
    | '.' :: cs => cs.takeWhile Char.isDigit
    | _ => []
  if ds.isEmpty && fs.isEmpty then none
  else
    some (mkRat (p.1 * ((digitsToNat ds : Int) * (10 : Int) ^ fs.length + (digitsToNat fs : Int)))
      ((10 : Nat) ^ fs.length))

/-- Split a character list at every occurrence of the separator. -/
def splitOnChar (sep : Char) : List Char → List (List Char)
  | [] => [[]]
  | c :: cs =>
    let r := splitOnChar sep cs
    if c = sep then [] :: r
    else
      match r with
      | [] => [[c]]
      | g :: gs => (c :: g) :: gs

/-- Nonempty all-digit character run to a number, `none` otherwise. -/
def charsToNat? (cs : List Char) : Option Nat :=
  if !cs.isEmpty && cs.all Char.isDigit then some (digitsToNat cs) else none

/-- Modelled host primitive `String.prototype.trim`: strip whitespace from
both ends (working on the character list). -/
def trimChars (cs : List Char) : List Char :=
  ((cs.dropWhile Char.isWhitespace).reverse.dropWhile Char.isWhitespace).reverse

/-- `parseInt` applied to a possibly-absent cell: `parseInt(undefined)` is
`NaN`. -/
def jsParseIntOpt : Option String → Option Int
  | none => none
  | some s => jsParseInt s

/-- `parseFloat` applied to a possibly-absent cell. -/
def jsParseFloatOpt : Option String → Option ℚ
  | none => none
  | some s => jsParseFloat s

/-- Modelled host primitive: `new Date(string)` restricted to strings of
the shape `YYYY-MM-DD HH:MM:SS`; anything else is an Invalid Date
(`none`).  Only the components observed by the program are retained.
`new Date(undefined)` is an Invalid Date. -/
def jsParseDate : Option String → Option DateVal
  | none => none
  | some s =>
    match splitOnChar ' ' s.data with
    | [d, t] =>
      match splitOnChar '-' d, splitOnChar ':' t with
      | [y, mo, _day], [h, _mi, _se] =>
        match charsToNat? y, charsToNat? mo, charsToNat? h with
        | some yn, some mon, some hn =>
          if hok : 1 ≤ mon ∧ mon ≤ 12 ∧ hn ≤ 23 then
            some ⟨(yn : Int), ⟨mon - 1, by omega⟩, ⟨hn, by omega⟩⟩
          else none
        | _, _, _ => none
      | _, _ => none
    | _ => none

/-- JavaScript `v || dflt` on a parsed integer: `NaN` and `0` are falsy. -/
def jsOrInt (v : Option Int) (dflt : Int) : Int :=
  match v with
  | none => dflt
  | some n => if n = 0 then dflt else n

/-- JavaScript `v || dflt` on a parsed float: `NaN` and `0` are falsy. -/
def jsOrRat (v : Option ℚ) (dflt : ℚ) : ℚ :=
  match v with
  | none => dflt
  | some q => if q = 0 then dflt else q

/-- The common-name row filter of `loadDetectionData`:
`row.common_name && row.common_name.trim() !== '' && row.common_name !== 'Blank'`. -/
def keepRow (r : RawRow) : Bool :=
  match r.common_name with
  | none => false
  | some s => s ≠ "" && trimChars s.data ≠ [] && s ≠ "Blank"

/-- The per-row mapping of `loadDetectionData`.  The loader applies it only
to rows that passed `keepRow` (where `common_name` is present); for the
sake of totality an absent `common_name` maps to the empty string. -/
def processRow (r : RawRow) : ProcessedDetection :=
  let startTime := jsParseDate r.start_time
  { year := jsOrInt (jsParseIntOpt r.Year) 0
    commonName := r.common_name.getD ""
    startTime := startTime
    groupSize := jsOrInt (jsParseIntOpt r.group_size) 1
    latitude := jsOrRat (jsParseFloatOpt r.Latitude) 0
    longitude := jsOrRat (jsParseFloatOpt r.Longitude) 0
    hour := startTime.map (·.hour)
    month := startTime.map (·.month)
    region := r.Region.getD ""
    arrayName := r.arrayName.getD ""
    sequenceId := r.sequence_id.getD ""
    deploymentId := r.deployment_id.getD "" }

/-- The normalization pipeline of `loadDetectionData` (transport parsing
excluded): drop rows with an unusable common name, map each remaining row
to a `ProcessedDetection`, then keep only records with
`year > 0 && latitude !== 0 && longitude !== 0`. -/
def loadDetectionData (rows : List RawRow) : List ProcessedDetection :=
  ((rows.filter keepRow).map processRow).filter
    (fun d => 0 < d.year && d.latitude ≠ 0 && d.longitude ≠ 0)

/-- A sample raw row every field of which is usable. -/
def sampleGoodRow : RawRow :=
  { Year := some "2019"
    common_name := some "Deer"
    start_time := some "2019-03-05 14:30:00"
    group_size := some "2"
    Latitude := some "42.1"
    Longitude := some "-84.5"
    Region := some "South"
    arrayName := some "SGA-1"
    sequence_id := some "seq1"
    deployment_id := some "dep1" }

/-- A sample raw row whose common name is the sentinel `Blank`. -/
def sampleBlankRow : RawRow :=
  { sampleGoodRow with common_name := some "Blank" }

/-- A sample raw row whose group size cell is the numeral `0`. -/
def sampleZeroGroupRow : RawRow :=
  { sampleGoodRow with group_size := some "0" }

/-- C1.  Every record in the normalized collection has a positive year,
nonzero coordinates and a nonempty common name; and inserting a raw row
whose common name is missing, blank after trimming, or the sentinel
`"Blank"` anywhere into the row source leaves the normalized collection
unchanged (such rows are excluded). -/
theorem loadDetectionData_invariants :
    (∀ rows : List RawRow, ∀ r ∈ loadDetectionData rows,
        0 < r.year ∧ r.latitude ≠ 0 ∧ r.longitude ≠ 0 ∧ r.commonName ≠ "")
    ∧ (∀ (pre post : List RawRow) (row : RawRow),
        (row.common_name = none ∨
          ∃ s, row.common_name = some s ∧ (trimChars s.data = [] ∨ s = "Blank")) →
        loadDetectionData (pre ++ row :: post) = loadDetectionData (pre ++ post)) := by
  constructor
  · intro rows r hr
    unfold loadDetectionData at hr
    rw [List.mem_filter] at hr
    obtain ⟨hmem, hcond⟩ := hr
    simp only [Bool.and_eq_true, decide_eq_true_eq] at hcond
    refine ⟨hcond.1.1, hcond.1.2, hcond.2, ?_⟩
    rw [List.mem_map] at hmem
    obtain ⟨row, hrow, hre⟩ := hmem
    rw [List.mem_filter] at hrow
    obtain ⟨-, hkeep⟩ := hrow
    unfold keepRow at hkeep
    cases hcn : row.common_name with
    | none => rw [hcn] at hkeep; exact absurd hkeep (by simp)
    | some s =>
      rw [hcn] at hkeep
      simp only [Bool.and_eq_true, decide_eq_true_eq] at hkeep
      subst hre
      simp only [processRow, hcn, Option.getD_some]
      exact hkeep.1.1
  · intro pre post row hbad
    have hfalse : keepRow row = false := by
      unfold keepRow
      rcases hbad with hnone | ⟨s, hs, hcase⟩
      · rw [hnone]
      · rw [hs]
        rcases hcase with htrim | hblank
        · simp [htrim]
        · simp [hblank]
    unfold loadDetectionData
    rw [List.filter_append, List.filter_append, List.filter_cons_of_neg]
    simp [hfalse]

/-- Closed instance of C1 at concrete rows. -/
theorem loadDetectionData_invariants_witness :
    (0 < (processRow sampleGoodRow).year ∧
      (processRow sampleGoodRow).latitude ≠ 0 ∧
      (processRow sampleGoodRow).longitude ≠ 0 ∧
      (processRow sampleGoodRow).commonName ≠ "")
    ∧ loadDetectionData ([] ++ sampleBlankRow :: []) = loadDetectionData ([] ++ []) :=
  ⟨loadDetectionData_invariants.1 [sampleGoodRow] (processRow sampleGoodRow) (by decide),
   loadDetectionData_invariants.2 [] [] sampleBlankRow
     (Or.inr ⟨"Blank", rfl, Or.inr rfl⟩)⟩

/-- C10.  Normalization never yields a record with `groupSize = 0`: every
normalized record has nonzero group size, and a raw row whose group-size
cell parses to `0` (for instance the string `"0"`) or fails to parse gets
the default group size `1`. -/
theorem groupSize_never_zero :
    (∀ rows : List RawRow, ∀ r ∈ loadDetectionData rows, r.groupSize ≠ 0)
    ∧ (∀ row : RawRow,
        (jsParseIntOpt row.group_size = some 0 ∨ jsParseIntOpt row.group_size = none) →
        (processRow row).groupSize = 1)
    ∧ jsParseInt "0" = some 0 := by
  refine ⟨?_, ?_, by decide⟩
  · intro rows r hr
    unfold loadDetectionData at hr
    rw [List.mem_filter] at hr
    obtain ⟨hmem, -⟩ := hr
    rw [List.mem_map] at hmem
    obtain ⟨row, -, hre⟩ := hmem
    subst hre
    simp only [processRow, jsOrInt]
    cases jsParseIntOpt row.group_size with
    | none => simp
    | some n =>
      by_cases hn : n = 0
      · simp [hn]
      · simp [hn]
  · intro row hcase
    simp only [processRow, jsOrInt]
    rcases hcase with h0 | hnan
    · rw [h0]; simp
    · rw [hnan]

/-- Closed instance of C10 at concrete rows. -/
theorem groupSize_never_zero_witness :
    (processRow sampleGoodRow).groupSize ≠ 0 ∧
      (processRow sampleZeroGroupRow).groupSize = 1 :=
  ⟨groupSize_never_zero.1 [sampleGoodRow] (processRow sampleGoodRow) (by decide),
   groupSize_never_zero.2.1 sampleZeroGroupRow (Or.inl (by decide))⟩

/-! ## Filter engine (the filter effect of the main component) -/

/-- Filter selection state of the main component: three multi-select
dimensions and the month-range slider pair. -/
structure FilterSelection where
  selectedSpecies : List String
  selectedRegions : List String
  selectedArrayNames : List String
  dateRange : Int × Int
deriving DecidableEq, Repr

/-- Slider minimum: January 2017. -/
def minDate : Int := 0

/-- Slider maximum: June 2025 (month index 101). -/
def maxDate : Int := 101

/-- One multi-select dimension of the filter effect:
`if (sel.length > 0 && !sel.includes('All')) data = data.filter(d => sel.includes(proj(d)))`.
The source repeats this block for species (`commonName`), region and array
name; the projection is the only difference. -/
def dimStage (sel : List String) (proj : ProcessedDetection → String)
    (data : List ProcessedDetection) : List ProcessedDetection :=
  if 0 < sel.length && !sel.contains "All" then
    data.filter (fun d => sel.contains (proj d))
  else data

/-- Month index of a valid timestamp:
`(date.getFullYear() - 2017) * 12 + date.getMonth()`. -/
def monthIndexOf (dv : DateVal) : Int :=
  (dv.year - 2017) * 12 + (dv.month : Int)

/-- The month-range predicate of the filter effect.  In the source
`d.startTime` is always a truthy Date object, so the `!d.startTime` early
return never fires; `isNaN(date.getTime())` (Invalid Date) corresponds to
`none` here, and `new Date(d.startTime)` merely copies the value. -/
def dateFilterPred (range : Int × Int) (d : ProcessedDetection) : Bool :=
  match d.startTime with
  | none => false
  | some dv => range.1 ≤ monthIndexOf dv && monthIndexOf dv ≤ range.2

/-- The filter effect of the main component: the three dimension stages in
source order, then the month-range filter. -/
def filterRecords (sel : FilterSelection) (data : List ProcessedDetection) :
    List ProcessedDetection :=
  (dimStage sel.selectedArrayNames (·.arrayName)
      (dimStage sel.selectedRegions (·.region)
        (dimStage sel.selectedSpecies (·.commonName) data))).filter
    (dateFilterPred sel.dateRange)

/-- The selection with `All` on every dimension and the full slider range. -/
def allSelection : FilterSelection :=
  { selectedSpecies := ["All"]
    selectedRegions := ["All"]
    selectedArrayNames := ["All"]
    dateRange := (minDate, maxDate) }

theorem contains_of_mem {l : List String} {a : String} (h : a ∈ l) :
    l.contains a = true := by
  simpa [List.contains, List.elem_iff] using h

theorem dimStage_of_all_mem (sel : List String) (proj : ProcessedDetection → String)
    (data : List ProcessedDetection) (h : "All" ∈ sel) :
    dimStage sel proj data = data := by
  unfold dimStage
  rw [contains_of_mem h]
  simp

theorem mem_of_mem_dimStage {sel : List String} {proj : ProcessedDetection → String}
    {data : List ProcessedDetection} {x : ProcessedDetection}
    (h : x ∈ dimStage sel proj data) : x ∈ data := by
  unfold dimStage at h
  split at h
  · exact (List.mem_filter.mp h).1
  · exact h

theorem sat_of_mem_dimStage {sel : List String} {proj : ProcessedDetection → String}
    {data : List ProcessedDetection} {x : ProcessedDetection}
    (h : x ∈ dimStage sel proj data)
    (hc : (0 < sel.length && !sel.contains "All") = true) :
    sel.contains (proj x) = true := by
  unfold dimStage at h
  rw [if_pos hc] at h
  exact (List.mem_filter.mp h).2

theorem dimStage_eq_self {sel : List String} {proj : ProcessedDetection → String}
    {data : List ProcessedDetection}
    (h : ∀ x ∈ data, (0 < sel.length && !sel.contains "All") = true →
      sel.contains (proj x) = true) :
    dimStage sel proj data = data := by
  unfold dimStage
  split
  · exact List.filter_eq_self.mpr fun a ha => h a ha (by assumption)
  · rfl

theorem filterRecords_eq_self {sel : FilterSelection} {Y : List ProcessedDetection}
    (hsp : ∀ x ∈ Y,
      (0 < sel.selectedSpecies.length && !sel.selectedSpecies.contains "All") = true →
      sel.selectedSpecies.contains x.commonName = true)
    (hreg : ∀ x ∈ Y,
      (0 < sel.selectedRegions.length && !sel.selectedRegions.contains "All") = true →
      sel.selectedRegions.contains x.region = true)
    (harr : ∀ x ∈ Y,
      (0 < sel.selectedArrayNames.length && !sel.selectedArrayNames.contains "All") = true →
      sel.selectedArrayNames.contains x.arrayName = true)
    (hdate : ∀ x ∈ Y, dateFilterPred sel.dateRange x = true) :
    filterRecords sel Y = Y := by
  unfold filterRecords
  rw [dimStage_eq_self hsp, dimStage_eq_self hreg, dimStage_eq_self harr]
  exact List.filter_eq_self.mpr hdate

/-- C7.  The filter engine is idempotent: filtering an already-filtered
collection with the same selection yields the identical collection. -/
theorem filterRecords_idempotent (sel : FilterSelection)
    (data : List ProcessedDetection) :
    filterRecords sel (filterRecords sel data) = filterRecords sel data := by
  have hmem : ∀ x ∈ filterRecords sel data,
      x ∈ dimStage sel.selectedArrayNames (·.arrayName)
        (dimStage sel.selectedRegions (·.region)
          (dimStage sel.selectedSpecies (·.commonName) data)) ∧
      dateFilterPred sel.dateRange x = true := by
    intro x hx
    exact ⟨(List.mem_filter.mp hx).1, (List.mem_filter.mp hx).2⟩
  have h3 : ∀ x ∈ filterRecords sel data,
      x ∈ dimStage sel.selectedRegions (·.region)
        (dimStage sel.selectedSpecies (·.commonName) data) :=
    fun x hx => mem_of_mem_dimStage (hmem x hx).1
  have h2 : ∀ x ∈ filterRecords sel data,
      x ∈ dimStage sel.selectedSpecies (·.commonName) data :=
    fun x hx => mem_of_mem_dimStage (h3 x hx)
  exact filterRecords_eq_self
    (fun x hx hc => sat_of_mem_dimStage (h2 x hx) hc)
    (fun x hx hc => sat_of_mem_dimStage (h3 x hx) hc)
    (fun x hx hc => sat_of_mem_dimStage (hmem x hx).1 hc)
    (fun x hx => (hmem x hx).2)

/-- C9.  For each filter dimension the restriction is skipped whenever the
sentinel `All` is a member of the selected set, even alongside concrete
values: such a selection imposes no restriction on that dimension. -/
theorem allSentinel_noRestriction :
    ∀ (sel : FilterSelection) (data : List ProcessedDetection),
      ("All" ∈ sel.selectedSpecies →
        dimStage sel.selectedSpecies (·.commonName) data = data)
      ∧ ("All" ∈ sel.selectedRegions →
        dimStage sel.selectedRegions (·.region) data = data)
      ∧ ("All" ∈ sel.selectedArrayNames →
        dimStage sel.selectedArrayNames (·.arrayName) data = data) :=
  fun sel data =>
    ⟨fun h => dimStage_of_all_mem sel.selectedSpecies (fun d => d.commonName) data h,
     fun h => dimStage_of_all_mem sel.selectedRegions (fun d => d.region) data h,
     fun h => dimStage_of_all_mem sel.selectedArrayNames (fun d => d.arrayName) data h⟩

/-- Closed instance of C9: the selection `{"All", "Deer"}` imposes no
restriction even though a concrete species is listed alongside the
sentinel. -/
theorem allSentinel_noRestriction_witness :
    dimStage (FilterSelection.selectedSpecies
        { selectedSpecies := ["All", "Deer"], selectedRegions := ["All"],
          selectedArrayNames := ["All"], dateRange := (minDate, maxDate) })
      (·.commonName) (loadDetectionData [sampleGoodRow]) =
      loadDetectionData [sampleGoodRow] :=
  (allSentinel_noRestriction
    { selectedSpecies := ["All", "Deer"], selectedRegions := ["All"],
      selectedArrayNames := ["All"], dateRange := (minDate, maxDate) }
    (loadDetectionData [sampleGoodRow])).1 (by decide)

/-- A sample raw row with an unparseable start time; it survives
normalization (year, coordinates and common name are fine) but its
`startTime` is an Invalid Date. -/
def sampleBadDateRow : RawRow :=
  { sampleGoodRow with start_time := some "not a date" }

/-- C2 counterexample: a normalized one-record collection whose record has
an Invalid Date `startTime`; the engine with `All` on every dimension and
the full month range drops it, so the output is not the input. -/
theorem filterAll_not_identity :
    filterRecords allSelection (loadDetectionData [sampleBadDateRow]) ≠
      loadDetectionData [sampleBadDateRow] := by decide

/-- C2 (amended).  With `All` selected on every dimension and the full
month-index range, the engine returns exactly the records passing the
full-range date gate (valid `startTime` with month index in `[0, 101]`),
in order; it returns the input unchanged precisely on collections all of
whose records pass that gate. -/
theorem filterAll_eq_dateFilter :
    (∀ data : List ProcessedDetection,
        filterRecords allSelection data =
          data.filter (dateFilterPred (minDate, maxDate)))
    ∧ (∀ data : List ProcessedDetection,
        (∀ r ∈ data, dateFilterPred (minDate, maxDate) r = true) →
        filterRecords allSelection data = data) := by
  have hall : ∀ data : List ProcessedDetection,
      filterRecords allSelection data =
        data.filter (dateFilterPred (minDate, maxDate)) := by
    intro data
    unfold filterRecords
    rw [dimStage_of_all_mem _ _ _ (by decide),
        dimStage_of_all_mem _ _ _ (by decide),
        dimStage_of_all_mem _ _ _ (by decide)]
    rfl
  exact ⟨hall, fun data h => by rw [hall data]; exact List.filter_eq_self.mpr h⟩

/-- Closed instance of the amended C2: on a collection whose single record
has a valid in-range timestamp, the all-`All` full-range filter is the
identity. -/
theorem filterAll_eq_dateFilter_witness :
    filterRecords allSelection (loadDetectionData [sampleGoodRow]) =
      loadDetectionData [sampleGoodRow] :=
  filterAll_eq_dateFilter.2 (loadDetectionData [sampleGoodRow]) (by decide)

/-- C3.  A record passes the month-range filter exactly when its
`startTime` is a valid timestamp whose month index
`(year - 2017) * 12 + month` lies in the selected closed interval; March
2019 has month index 26; a record with an invalid `startTime` never passes
the date filter. -/
theorem dateFilter_spec :
    (∀ (range : Int × Int) (d : ProcessedDetection),
        dateFilterPred range d = true ↔
          ∃ dv, d.startTime = some dv ∧
            range.1 ≤ monthIndexOf dv ∧ monthIndexOf dv ≤ range.2)
    ∧ monthIndexOf ⟨2019, ⟨2, by omega⟩, ⟨0, by omega⟩⟩ = 26
    ∧ (∀ (range : Int × Int) (d : ProcessedDetection),
        d.startTime = none → dateFilterPred range d = false) := by
  refine ⟨?_, by decide, ?_⟩
  · intro range d
    unfold dateFilterPred
    cases h : d.startTime with
    | none => simp
    | some dv =>
      simp only [Bool.and_eq_true, decide_eq_true_eq]
      constructor
      · exact fun hb => ⟨dv, rfl, hb.1, hb.2⟩
      · rintro ⟨dv', hdv', h1, h2⟩
        cases Option.some.inj hdv'
        exact ⟨h1, h2⟩
  · intro range d h
    unfold dateFilterPred
    rw [h]

/-- Closed instance of C3: the sample valid record (March 2019) passes the
full range, and the Invalid Date record is excluded even though it
survived normalization. -/
theorem dateFilter_spec_witness :
    (dateFilterPred (0, 101) (processRow sampleBadDateRow) = false)
    ∧ processRow sampleBadDateRow ∈ loadDetectionData [sampleBadDateRow]
    ∧ dateFilterPred (0, 101) (processRow sampleGoodRow) = true :=
  ⟨dateFilter_spec.2.2 (0, 101) (processRow sampleBadDateRow) (by decide),
   by decide, by decide⟩

/-! ## Activity aggregators -/

/-- `hourCounts[d.hour]++` on the 24-slot array.  A record whose `hour` is
`NaN` (Invalid Date) writes to the non-index property `"NaN"` of the
JavaScript array, leaving every bucket 0..23 unchanged, which the `none`
branch models. -/
def bumpHour (cs : List Nat) (d : ProcessedDetection) : List Nat :=
  match d.hour with
  | none => cs
  | some h => cs.set h.val (cs.getD h.val 0 + 1)

/-- `monthCounts[d.month]++` on the 12-slot array; same `NaN` remark. -/
def bumpMonth (cs : List Nat) (d : ProcessedDetection) : List Nat :=
  match d.month with
  | none => cs
  | some m => cs.set m.val (cs.getD m.val 0 + 1)

/-- `getHourlyActivity`: a 24-bucket histogram indexed by hour, emitted as
the ordered list of `(hour, count)` pairs. -/
def getHourlyActivity (data : List ProcessedDetection) : List (Nat × Nat) :=
  (data.foldl bumpHour (List.replicate 24 0)).enum

/-- Month labels of `getMonthlyActivity`. -/
def monthNames : List String :=
  ["Jan", "Feb", "Mar", "Apr", "May", "Jun",
   "Jul", "Aug", "Sep", "Oct", "Nov", "Dec"]

/-- `getMonthlyActivity`: a 12-bucket histogram emitted as the ordered list
of `(month, monthName, count)` triples. -/
def getMonthlyActivity (data : List ProcessedDetection) :
    List (Nat × String × Nat) :=
  (data.foldl bumpMonth (List.replicate 12 0)).enum.map
    (fun p => (p.1, monthNames.getD p.1 "", p.2))

theorem sum_set_succ {cs : List Nat} {i : Nat} (h : i < cs.length) :
    (cs.set i (cs.getD i 0 + 1)).sum = cs.sum + 1 := by
  induction cs generalizing i with
  | nil => simp at h
  | cons c cs ih =>
    cases i with
    | zero => simp [List.getD]; omega
    | succ n =>
      have hn : n < cs.length := by simpa using h
      simp only [List.set, List.getD_cons_succ, List.sum_cons, ih hn]
      omega

theorem length_bumpHour (cs : List Nat) (d : ProcessedDetection) :
    (bumpHour cs d).length = cs.length := by
  unfold bumpHour
  cases d.hour <;> simp

theorem length_bumpMonth (cs : List Nat) (d : ProcessedDetection) :
    (bumpMonth cs d).length = cs.length := by
  unfold bumpMonth
  cases d.month <;> simp

theorem fold_bumpHour_length (data : List ProcessedDetection) (cs : List Nat) :
    (data.foldl bumpHour cs).length = cs.length := by
  induction data generalizing cs with
  | nil => rfl
  | cons d data ih => simp [List.foldl_cons, ih, length_bumpHour]

theorem fold_bumpMonth_length (data : List ProcessedDetection) (cs : List Nat) :
    (data.foldl bumpMonth cs).length = cs.length := by
  induction data generalizing cs with
  | nil => rfl
  | cons d data ih => simp [List.foldl_cons, ih, length_bumpMonth]

theorem fold_bumpHour_sum (data : List ProcessedDetection) (cs : List Nat)
    (hlen : cs.length = 24) :
    (data.foldl bumpHour cs).sum = cs.sum + data.countP (fun d => d.hour.isSome) := by
  induction data generalizing cs with
  | nil => simp
  | cons d data ih =>
    rw [List.foldl_cons, ih (bumpHour cs d) (by rw [length_bumpHour]; exact hlen)]
    unfold bumpHour
    cases hh : d.hour with
    | none => simp [List.countP_cons, hh]
    | some h =>
      rw [sum_set_succ (by rw [hlen]; exact h.isLt)]
      simp [List.countP_cons, hh]
      omega

theorem fold_bumpMonth_sum (data : List ProcessedDetection) (cs : List Nat)
    (hlen : cs.length = 12) :
    (data.foldl bumpMonth cs).sum = cs.sum + data.countP (fun d => d.month.isSome) := by
  induction data generalizing cs with
  | nil => simp
  | cons d data ih =>
    rw [List.foldl_cons, ih (bumpMonth cs d) (by rw [length_bumpMonth]; exact hlen)]
    unfold bumpMonth
    cases hm : d.month with
    | none => simp [List.countP_cons, hm]
    | some m =>
      rw [sum_set_succ (by rw [hlen]; exact m.isLt)]
      simp [List.countP_cons, hm]
      omega

/-- C5.  On a collection all of whose records carry a valid hour and month
(as every date-filtered collection does — second part), `getHourlyActivity`
is an ordered 24-entry `(hour, count)` sequence for hours 0..23 whose
counts sum to the number of records (each record counted once, unweighted),
and `getMonthlyActivity` is likewise an ordered 12-entry sequence whose
counts sum to the number of records. -/
theorem activityHistograms_sum :
    (∀ data : List ProcessedDetection,
        (∀ r ∈ data, r.hour.isSome ∧ r.month.isSome) →
        (getHourlyActivity data).length = 24
        ∧ (getHourlyActivity data).map Prod.fst = List.range 24
        ∧ ((getHourlyActivity data).map Prod.snd).sum = data.length
        ∧ (getMonthlyActivity data).length = 12
        ∧ (getMonthlyActivity data).map (fun p => p.1) = List.range 12
        ∧ ((getMonthlyActivity data).map (fun p => p.2.2)).sum = data.length)
    ∧ (∀ (rows : List RawRow) (sel : FilterSelection),
        ∀ r ∈ filterRecords sel (loadDetectionData rows),
          r.hour.isSome ∧ r.month.isSome) := by
  constructor
  · intro data hvalid
    have hlenH : (data.foldl bumpHour (List.replicate 24 0)).length = 24 := by
      rw [fold_bumpHour_length]; simp
    have hlenM : (data.foldl bumpMonth (List.replicate 12 0)).length = 12 := by
      rw [fold_bumpMonth_length]; simp
    have hcntH : data.countP (fun d => d.hour.isSome) = data.length :=
      List.countP_eq_length.mpr fun d hd => by
        simpa using (hvalid d hd).1
    have hcntM : data.countP (fun d => d.month.isSome) = data.length :=
      List.countP_eq_length.mpr fun d hd => by
        simpa using (hvalid d hd).2
    refine ⟨?_, ?_, ?_, ?_, ?_, ?_⟩
    · unfold getHourlyActivity
      rw [List.enum_length]
      exact hlenH
    · unfold getHourlyActivity
      rw [List.enum_map_fst, hlenH]
    · unfold getHourlyActivity
      rw [List.enum_map_snd, fold_bumpHour_sum data _ (by simp), hcntH]
      simp
    · unfold getMonthlyActivity
      rw [List.length_map, List.enum_length]
      exact hlenM
    · unfold getMonthlyActivity
      rw [List.map_map,
        show ((fun p : Nat × String × Nat => p.1) ∘
            (fun p : Nat × Nat => (p.1, monthNames.getD p.1 "", p.2))) = Prod.fst from rfl,
        List.enum_map_fst, hlenM]
    · unfold getMonthlyActivity
      rw [List.map_map,
        show ((fun p : Nat × String × Nat => p.2.2) ∘
            (fun p : Nat × Nat => (p.1, monthNames.getD p.1 "", p.2))) = Prod.snd from rfl,
        List.enum_map_snd, fold_bumpMonth_sum data _ (by simp), hcntM]
      simp
  · intro rows sel r hr
    have hdate : dateFilterPred sel.dateRange r = true := (List.mem_filter.mp hr).2
    have hmemload : r ∈ loadDetectionData rows :=
      mem_of_mem_dimStage (mem_of_mem_dimStage
        (mem_of_mem_dimStage (List.mem_filter.mp hr).1))
    have hsome : r.startTime.isSome := by
      unfold dateFilterPred at hdate
      cases h : r.startTime with
      | none => rw [h] at hdate; exact absurd hdate (by simp)
      | some dv => simp
    unfold loadDetectionData at hmemload
    obtain ⟨hmem, -⟩ := List.mem_filter.mp hmemload
    obtain ⟨row, -, hre⟩ := List.mem_map.mp hmem
    subst hre
    simp only [processRow] at hsome ⊢
    cases h : jsParseDate row.start_time with
    | none => rw [h] at hsome; exact absurd hsome (by simp)
    | some dv => simp [h]

/-- Closed instance of C5 on a concrete one-record collection. -/
theorem activityHistograms_sum_witness :
    (getHourlyActivity [processRow sampleGoodRow]).length = 24
    ∧ (getHourlyActivity [processRow sampleGoodRow]).map Prod.fst = List.range 24
    ∧ ((getHourlyActivity [processRow sampleGoodRow]).map Prod.snd).sum =
        [processRow sampleGoodRow].length
    ∧ (getMonthlyActivity [processRow sampleGoodRow]).length = 12
    ∧ (getMonthlyActivity [processRow sampleGoodRow]).map (fun p => p.1) = List.range 12
    ∧ ((getMonthlyActivity [processRow sampleGoodRow]).map (fun p => p.2.2)).sum =
        [processRow sampleGoodRow].length :=
  activityHistograms_sum.1 [processRow sampleGoodRow] (by decide)

/-! ## Species colors -/

/-- Reading of a number as a signed 32-bit integer (the `ToInt32` coercion
applied by the JavaScript `<<` operator). -/
def toInt32 (n : Int) : Int :=
  let m := n % 4294967296
  if m < 2147483648 then m else m - 4294967296

/-- The fixed 15-entry palette of `getSpeciesColor` (the entry `#c0392b`
appears twice in the source). -/
def speciesColors : List String :=
  ["#e74c3c", "#3498db", "#2ecc71", "#f39c12", "#9b59b6",
   "#1abc9c", "#e67e22", "#34495e", "#16a085", "#c0392b",
   "#2980b9", "#8e44ad", "#27ae60", "#d35400", "#c0392b"]

/-- One step of the hash loop
`hash = species.charCodeAt(i) + ((hash << 5) - hash)`.  JavaScript `<<`
coerces its left operand to a 32-bit integer and yields a 32-bit result,
but the surrounding subtraction and addition are performed exactly on the
unwrapped accumulator (the running value stays far below 2^53): only the
shifted term is wrapped.  Species names are ASCII, where `charCodeAt`
agrees with the code point. -/
def hashStep (h : Int) (c : Char) : Int :=
  (c.toNat : Int) + (toInt32 (toInt32 h * 32) - h)

/-- The hash loop of `getSpeciesColor` over the name's characters. -/
def speciesHash (s : String) : Int :=
  s.data.foldl hashStep 0

/-- `getSpeciesColor`: palette entry at `Math.abs(hash) % colors.length`. -/
def getSpeciesColor (s : String) : String :=
  speciesColors.getD ((speciesHash s).natAbs % speciesColors.length) ""

/-- The hash described by the claim: `h ← charCode + h * 31`, reduced to a
32-bit integer at every step. -/
def claimedHash (s : String) : Int :=
  s.data.foldl (fun h c => toInt32 ((c.toNat : Int) + h * 31)) 0

/-- Palette entry selected by the claimed 32-bit polynomial hash. -/
def claimedColor (s : String) : String :=
  speciesColors.getD ((claimedHash s).natAbs % speciesColors.length) ""

set_option maxRecDepth 8192 in
/-- C8 counterexample: for the name `"Raccoon"` the program's color (the
real hash wraps only the shifted term, leaving the accumulator unwrapped)
differs from the palette entry selected by the claimed 32-bit-wrapped
polynomial hash `h ← charCode + h * 31`. -/
theorem speciesColor_claim_cex :
    getSpeciesColor "Raccoon" ≠ claimedColor "Raccoon" := by decide

/-- C8 (amended).  Color assignment is a deterministic function of the
species name alone: the palette entry at index `abs(h) mod 15`, where `h`
is accumulated as `h ← charCode + (toInt32 (toInt32 h * 32) − h)` — the
shifted term is reduced to 32 bits but the accumulator itself is kept
exact — and two distinct names (here `"A"` and `"P"`) may receive the same
color. -/
theorem speciesColor_spec :
    (∀ s : String,
        getSpeciesColor s = speciesColors.getD ((s.data.foldl hashStep 0).natAbs % 15) "")
    ∧ speciesColors.length = 15
    ∧ ("A" ≠ "P" ∧ getSpeciesColor "A" = getSpeciesColor "P") :=
  ⟨fun _ => rfl, by decide, by decide, by decide⟩

/-! ## Geo-clustering (map points) -/

/-- `d.groupSize || 1`: `0` is falsy (a normalized record never carries 0,
so on pipeline data this is the identity). -/
def jsOr1 (g : Int) : Int :=
  if g = 0 then 1 else g

/-- JavaScript truthiness of a coordinate in the
`filter(d => d.latitude && d.longitude)` guard; a normalized coordinate is
never `NaN`, so `0` is the only falsy value. -/
def truthyCoord (q : ℚ) : Bool :=
  q ≠ 0

/-- The cluster key of a record.  The source builds the string
`lat + "," + lng`; JavaScript number printing is injective on numbers, so
the coordinate pair itself is the faithful key. -/
def keyOf (d : ProcessedDetection) : ℚ × ℚ :=
  (d.latitude, d.longitude)

/-- One location cluster: the per-species group-size sums (an
insertion-ordered JavaScript `Map`) and the grand total. -/
structure LocCluster where
  lat : ℚ
  lng : ℚ
  species : List (String × Int)
  totalCount : Int
deriving DecidableEq, Repr

/-- `location.species.set(name, (location.species.get(name) || 0) + add)`:
update the existing entry in place (a `Map` keeps the original insertion
position), or append a fresh entry. -/
def upsertSpecies : List (String × Int) → String → Int → List (String × Int)
  | [], name, add => [(name, add)]
  | (k, v) :: rest, name, add =>
    if k = name then (k, v + add) :: rest
    else (k, v) :: upsertSpecies rest name add

/-- The per-record cluster update of the `locations` reduce. -/
def updCluster (d : ProcessedDetection) (c : LocCluster) : LocCluster :=
  { lat := c.lat
    lng := c.lng
    species := upsertSpecies c.species d.commonName (jsOr1 d.groupSize)
    totalCount := c.totalCount + jsOr1 d.groupSize }

/-- One step of the `locations` reduce: append an empty cluster if the key
is new (`Map.set` appends), then update the cluster stored at the key. -/
def insertDetection (acc : List ((ℚ × ℚ) × LocCluster)) (d : ProcessedDetection) :
    List ((ℚ × ℚ) × LocCluster) :=
  let key := keyOf d
  let withKey :=
    if (acc.map Prod.fst).contains key then acc
    else acc ++ [(key, ⟨d.latitude, d.longitude, [], 0⟩)]
  withKey.map (fun p => if p.1 = key then (p.1, updCluster d p.2) else p)

/-- The `locations` reduce of the main component: group the (coordinate-
truthy) records into insertion-ordered clusters keyed by coordinate pair. -/
def locations (data : List ProcessedDetection) : List ((ℚ × ℚ) × LocCluster) :=
  (data.filter (fun d => truthyCoord d.latitude && truthyCoord d.longitude)).foldl
    insertDetection []

/-- One rendered map point. -/
structure MapPoint where
  lat : ℚ
  lng : ℚ
  species : List (String × Int × String)
  totalCount : Int
  showColors : Bool
deriving DecidableEq, Repr

/-- The `mapPoints` construction: per cluster either the full per-species
breakdown (insertion order, hashed colors) or the single synthetic
`All Species` entry with the neutral color. -/
def mapPoints (showSpeciesColors : Bool) (data : List ProcessedDetection) :
    List MapPoint :=
  (locations data).map (fun p =>
    { lat := p.2.lat
      lng := p.2.lng
      species :=
        if showSpeciesColors then
          p.2.species.map (fun q => (q.1, q.2, getSpeciesColor q.1))
        else [("All Species", p.2.totalCount, "#4A90E2")]
      totalCount := p.2.totalCount
      showColors := showSpeciesColors })

/-- `map.get(s) || 0` on a species map. -/
def assocGetD (l : List (String × Int)) (s : String) : Int :=
  match l.find? (fun q => q.1 = s) with
  | none => 0
  | some q => q.2

/-- Sum of the effective (`|| 1`) group sizes of a collection. -/
def sumGroup (data : List ProcessedDetection) : Int :=
  (data.map (fun d => jsOr1 d.groupSize)).sum

theorem assocGetD_upsert_same (l : List (String × Int)) (name : String) (add : Int) :
    assocGetD (upsertSpecies l name add) name = assocGetD l name + add := by
  induction l with
  | nil => simp [upsertSpecies, assocGetD, List.find?]
  | cons q rest ih =>
    obtain ⟨k, v⟩ := q
    by_cases h : k = name
    · subst h
      simp [upsertSpecies, assocGetD, List.find?]
    · simp only [upsertSpecies, if_neg h, assocGetD, List.find?_cons, decide_eq_false h]
      simpa [assocGetD] using ih

theorem assocGetD_upsert_other (l : List (String × Int)) (name s : String) (add : Int)
    (hne : s ≠ name) :
    assocGetD (upsertSpecies l name add) s = assocGetD l s := by
  induction l with
  | nil => simp [upsertSpecies, assocGetD, List.find?, Ne.symm hne]
  | cons q rest ih =>
    obtain ⟨k, v⟩ := q
    by_cases h : k = name
    · subst h
      simp [upsertSpecies, assocGetD, List.find?_cons, Ne.symm hne]
    · simp only [upsertSpecies, if_neg h]
      by_cases hs : k = s
      · subst hs
        simp [assocGetD, List.find?_cons]
      · simp only [assocGetD, List.find?_cons, decide_eq_false hs] at ih ⊢
        exact ih

theorem keys_upsert (l : List (String × Int)) (name : String) (add : Int) :
    (upsertSpecies l name add).map Prod.fst =
      if name ∈ l.map Prod.fst then l.map Prod.fst else l.map Prod.fst ++ [name] := by
  induction l with
  | nil => simp [upsertSpecies]
  | cons q rest ih =>
    obtain ⟨k, v⟩ := q
    by_cases h : k = name
    · subst h
      simp [upsertSpecies]
    · simp only [upsertSpecies, if_neg h, List.map_cons, ih]
      by_cases hm : name ∈ rest.map Prod.fst
      · simp [hm, h, Ne.symm h]
      · simp [hm, h, Ne.symm h]

theorem nodup_keys_upsert (l : List (String × Int)) (name : String) (add : Int)
    (h : (l.map Prod.fst).Nodup) :
    ((upsertSpecies l name add).map Prod.fst).Nodup := by
  rw [keys_upsert]
  split
  · exact h
  · rw [List.nodup_append]
    refine ⟨h, List.nodup_singleton name, ?_⟩
    intro a ha hb
    rw [List.mem_singleton] at hb
    subst hb
    exact absurd ha (by assumption)

theorem assocGetD_of_mem {l : List (String × Int)} {q : String × Int}
    (hnd : (l.map Prod.fst).Nodup) (hm : q ∈ l) :
    assocGetD l q.1 = q.2 := by
  induction l with
  | nil => simp at hm
  | cons p rest ih =>
    rw [List.map_cons, List.nodup_cons] at hnd
    rcases List.mem_cons.mp hm with rfl | hmem
    · simp [assocGetD, List.find?_cons]
    · have hne : p.1 ≠ q.1 := by
        intro hcontra
        exact hnd.1 (hcontra ▸ List.mem_map.mpr ⟨q, hmem, rfl⟩)
      simp only [assocGetD, List.find?_cons, decide_eq_false hne]
      exact ih hnd.2 hmem

theorem contains_iff_mem {α : Type} [BEq α] [LawfulBEq α] {l : List α} {a : α} :
    l.contains a = true ↔ a ∈ l := by
  simp [List.contains, List.elem_iff]

theorem sumGroup_append (l1 l2 : List ProcessedDetection) :
    sumGroup (l1 ++ l2) = sumGroup l1 + sumGroup l2 := by
  simp [sumGroup]

theorem sumGroup_eq_sum {l : List ProcessedDetection}
    (h : ∀ d ∈ l, d.groupSize ≠ 0) :
    sumGroup l = (l.map (fun d => d.groupSize)).sum :=
  congrArg List.sum (List.map_congr_left fun d hd => by simp [jsOr1, h d hd])

theorem filter_key_nil {pre : List ProcessedDetection} {key : ℚ × ℚ}
    (h : key ∉ pre.map keyOf) :
    pre.filter (fun d => keyOf d = key) = [] := by
  apply List.filter_eq_nil_iff.mpr
  intro a ha
  simp only [decide_eq_true_eq]
  intro hk
  exact h (List.mem_map.mpr ⟨a, ha, hk⟩)

theorem keys_upd (l : List ((ℚ × ℚ) × LocCluster)) (d : ProcessedDetection)
    (key : ℚ × ℚ) :
    (l.map (fun p => if p.1 = key then (p.1, updCluster d p.2) else p)).map Prod.fst =
      l.map Prod.fst := by
  rw [List.map_map]
  apply List.map_congr_left
  intro p hp
  by_cases h : p.1 = key <;> simp [h]

theorem sum_total_upd (l : List ((ℚ × ℚ) × LocCluster)) (d : ProcessedDetection)
    (key : ℚ × ℚ) (hnd : (l.map Prod.fst).Nodup) (hin : key ∈ l.map Prod.fst) :
    ((l.map (fun p => if p.1 = key then (p.1, updCluster d p.2) else p)).map
        (fun p => p.2.totalCount)).sum =
      (l.map (fun p => p.2.totalCount)).sum + jsOr1 d.groupSize := by
  induction l with
  | nil => simp at hin
  | cons p l ih =>
    rw [List.map_cons, List.nodup_cons] at hnd
    by_cases h : p.1 = key
    · subst h
      have hid : ∀ q ∈ l, (if q.1 = p.1 then (q.1, updCluster d q.2) else q) = q := by
        intro q hq
        rw [if_neg]
        intro hcontra
        exact hnd.1 (hcontra ▸ List.mem_map.mpr ⟨q, hq, rfl⟩)
      rw [List.map_cons, if_pos rfl, List.map_congr_left (g := id) hid, List.map_id,
        List.map_cons, List.sum_cons, List.map_cons, List.sum_cons]
      simp only [updCluster]
      omega
    · have hin' : key ∈ l.map Prod.fst := by
        rcases List.mem_cons.mp hin with heq | hmem
        · exact absurd heq.symm h
        · exact hmem
      rw [List.map_cons, if_neg h, List.map_cons, List.sum_cons,
        List.map_cons, List.sum_cons, ih hnd.2 hin']
      omega

/-- Invariant of the `locations` reduce after consuming the prefix `pre`:
keys are distinct and are exactly the keys seen so far; each cluster caches
its own coordinates, holds the per-species group-size sums and the total of
its records; and the cluster totals add up to the running grand total. -/
def LocAccInv (pre : List ProcessedDetection)
    (acc : List ((ℚ × ℚ) × LocCluster)) : Prop :=
  (acc.map Prod.fst).Nodup
  ∧ (∀ k, k ∈ acc.map Prod.fst ↔ k ∈ pre.map keyOf)
  ∧ (∀ p ∈ acc, p.2.lat = p.1.1 ∧ p.2.lng = p.1.2)
  ∧ (∀ p ∈ acc, p.2.totalCount = sumGroup (pre.filter (fun d => keyOf d = p.1)))
  ∧ (∀ p ∈ acc, ∀ s, assocGetD p.2.species s =
      sumGroup ((pre.filter (fun d => keyOf d = p.1)).filter
        (fun d => d.commonName = s)))
  ∧ (acc.map (fun p => p.2.totalCount)).sum = sumGroup pre
  ∧ (∀ p ∈ acc, (p.2.species.map Prod.fst).Nodup)

theorem locAccInv_nil : LocAccInv [] [] := by
  refine ⟨List.nodup_nil, ?_, ?_, ?_, ?_, ?_, ?_⟩ <;> simp [sumGroup]

theorem locAccInv_step {pre : List ProcessedDetection}
    {acc : List ((ℚ × ℚ) × LocCluster)} (hinv : LocAccInv pre acc)
    (d : ProcessedDetection) :
    LocAccInv (pre ++ [d]) (insertDetection acc d) := by
  obtain ⟨hnd, hkeys, hll, htot, hsp, hsum, hspnd⟩ := hinv
  unfold insertDetection
  simp only []
  set key := keyOf d with hkeydef
  set withKey :=
    (if (acc.map Prod.fst).contains key then acc
     else acc ++ [(key, ⟨d.latitude, d.longitude, [], 0⟩)]) with hWdef
  -- facts about the ensured accumulator
  have hWnd : (withKey.map Prod.fst).Nodup := by
    rw [hWdef]
    split
    · exact hnd
    · rw [List.map_append, List.nodup_append]
      refine ⟨hnd, by simp, ?_⟩
      intro a ha hb
      simp only [List.map_cons, List.map_nil, List.mem_singleton] at hb
      subst hb
      have : ¬(acc.map Prod.fst).contains key = true := by assumption
      exact this (contains_iff_mem.mpr ha)
  have hWmem : ∀ k, k ∈ withKey.map Prod.fst ↔ k ∈ acc.map Prod.fst ∨ k = key := by
    intro k
    rw [hWdef]
    split
    · have hc : key ∈ acc.map Prod.fst :=
        contains_iff_mem.mp (by assumption)
      constructor
      · exact fun h => Or.inl h
      · rintro (h | rfl)
        · exact h
        · exact hc
    · rw [List.map_append]
      simp [or_comm]
  have hWkey : key ∈ withKey.map Prod.fst := (hWmem key).mpr (Or.inr rfl)
  have hWcases : ∀ p ∈ withKey, p ∈ acc ∨
      (p = (key, ⟨d.latitude, d.longitude, [], 0⟩) ∧ key ∉ acc.map Prod.fst) := by
    intro p hp
    rw [hWdef] at hp
    split at hp
    · exact Or.inl hp
    · rcases List.mem_append.mp hp with h | h
      · exact Or.inl h
      · rw [List.mem_singleton] at h
        refine Or.inr ⟨h, fun hmem => ?_⟩
        have : ¬(acc.map Prod.fst).contains key = true := by assumption
        exact this (contains_iff_mem.mpr hmem)
  -- per-cluster invariants on the ensured accumulator (still w.r.t. pre)
  have hWll : ∀ p ∈ withKey, p.2.lat = p.1.1 ∧ p.2.lng = p.1.2 := by
    intro p hp
    rcases hWcases p hp with h | ⟨rfl, -⟩
    · exact hll p h
    · exact ⟨rfl, rfl⟩
  have hWtot : ∀ p ∈ withKey,
      p.2.totalCount = sumGroup (pre.filter (fun x => keyOf x = p.1)) := by
    intro p hp
    rcases hWcases p hp with h | ⟨rfl, hnew⟩
    · exact htot p h
    · rw [filter_key_nil (fun hmem => hnew ((hkeys key).mpr hmem))]
      rfl
  have hWsp : ∀ p ∈ withKey, ∀ s, assocGetD p.2.species s =
      sumGroup ((pre.filter (fun x => keyOf x = p.1)).filter
        (fun x => x.commonName = s)) := by
    intro p hp s
    rcases hWcases p hp with h | ⟨rfl, hnew⟩
    · exact hsp p h s
    · rw [filter_key_nil (fun hmem => hnew ((hkeys key).mpr hmem))]
      rfl
  have hWsum : (withKey.map (fun p => p.2.totalCount)).sum = sumGroup pre := by
    rw [hWdef]
    split
    · exact hsum
    · rw [List.map_append, List.sum_append]
      simpa using hsum
  have hWspnd : ∀ p ∈ withKey, (p.2.species.map Prod.fst).Nodup := by
    intro p hp
    rcases hWcases p hp with h | ⟨rfl, -⟩
    · exact hspnd p h
    · simp
  -- now the mapped update
  refine ⟨?_, ?_, ?_, ?_, ?_, ?_, ?_⟩
  · rw [keys_upd]
    exact hWnd
  · intro k
    rw [keys_upd, hWmem k, List.map_append]
    simp [hkeys k, or_comm]
  · intro p hp
    obtain ⟨q, hq, hqe⟩ := List.mem_map.mp hp
    by_cases h : q.1 = key
    · rw [if_pos h] at hqe
      subst hqe
      exact ⟨(hWll q hq).1, (hWll q hq).2⟩
    · rw [if_neg h] at hqe
      subst hqe
      exact hWll q hq
  · intro p hp
    obtain ⟨q, hq, hqe⟩ := List.mem_map.mp hp
    rw [List.filter_append]
    by_cases h : q.1 = key
    · rw [if_pos h] at hqe
      subst hqe
      simp only [updCluster]
      have hdkey : List.filter (fun x => decide (keyOf x = q.1)) [d] = [d] := by
        simp [h, ← hkeydef]
      rw [hdkey, sumGroup_append, hWtot q hq]
      simp only [sumGroup, List.map_cons, List.map_nil, List.sum_cons, List.sum_nil]
      omega
    · rw [if_neg h] at hqe
      subst hqe
      rw [hWtot q hq]
      have hdkey : List.filter (fun x => decide (keyOf x = q.1)) [d] = [] := by
        simp only [List.filter_cons, List.filter_nil, decide_eq_true_eq]
        rw [if_neg]
        rw [← hkeydef]
        exact fun hc => h hc.symm
      rw [hdkey, List.append_nil]
  · intro p hp s
    obtain ⟨q, hq, hqe⟩ := List.mem_map.mp hp
    rw [List.filter_append]
    by_cases h : q.1 = key
    · rw [if_pos h] at hqe
      subst hqe
      simp only [updCluster]
      have hdkey : List.filter (fun x => decide (keyOf x = q.1)) [d] = [d] := by
        simp [h, ← hkeydef]
      rw [hdkey, List.filter_append]
      by_cases hname : s = d.commonName
      · subst hname
        have hdnm : List.filter (fun x => decide (x.commonName = d.commonName)) [d] = [d] := by
          simp
        rw [hdnm, sumGroup_append, assocGetD_upsert_same, hWsp q hq]
        simp only [sumGroup, List.map_cons, List.map_nil, List.sum_cons, List.sum_nil]
        omega
      · have hdnm : List.filter (fun x => decide (x.commonName = s)) [d] = [] := by
          simp only [List.filter_cons, List.filter_nil, decide_eq_true_eq]
          rw [if_neg (fun hc => hname hc.symm)]
        rw [hdnm, List.append_nil, assocGetD_upsert_other _ _ _ _ hname, hWsp q hq]
    · rw [if_neg h] at hqe
      subst hqe
      have hdkey : List.filter (fun x => decide (keyOf x = q.1)) [d] = [] := by
        simp only [List.filter_cons, List.filter_nil, decide_eq_true_eq]
        rw [if_neg]
        rw [← hkeydef]
        exact fun hc => h hc.symm
      rw [hdkey, List.append_nil, hWsp q hq]
  · rw [sum_total_upd withKey d key hWnd hWkey, hWsum, sumGroup_append]
    simp [sumGroup]
  · intro p hp
    obtain ⟨q, hq, hqe⟩ := List.mem_map.mp hp
    by_cases h : q.1 = key
    · rw [if_pos h] at hqe
      subst hqe
      exact nodup_keys_upsert _ _ _ (hWspnd q hq)
    · rw [if_neg h] at hqe
      subst hqe
      exact hWspnd q hq

theorem locAccInv_fold (rest : List ProcessedDetection) :
    ∀ (pre : List ProcessedDetection) (acc : List ((ℚ × ℚ) × LocCluster)),
      LocAccInv pre acc →
      LocAccInv (pre ++ rest) (rest.foldl insertDetection acc) := by
  induction rest with
  | nil =>
    intro pre acc h
    simpa using h
  | cons d rest ih =>
    intro pre acc h
    have hstep := locAccInv_step h d
    have hrec := ih (pre ++ [d]) (insertDetection acc d) hstep
    simpa [List.append_assoc] using hrec

theorem locations_inv (data : List ProcessedDetection) :
    LocAccInv
      (data.filter (fun d => truthyCoord d.latitude && truthyCoord d.longitude))
      (locations data) := by
  have h := locAccInv_fold
    (data.filter (fun d => truthyCoord d.latitude && truthyCoord d.longitude))
    [] [] locAccInv_nil
  simpa [locations] using h

/-- C4.  The geo-clusterer produces exactly one map point per distinct
coordinate pair of the collection; in color mode each listed per-species
count is the sum of `groupSize` for that species at that point's location;
and the point totals add up to the `groupSize` sum of the whole input.
The hypotheses are exactly the normalization invariants (nonzero
coordinates, nonzero group size), under which the truthiness guard and the
`|| 1` default of the source are inert. -/
theorem mapPoints_spec (b : Bool) (data : List ProcessedDetection)
    (hco : ∀ r ∈ data, r.latitude ≠ 0 ∧ r.longitude ≠ 0)
    (hg : ∀ r ∈ data, r.groupSize ≠ 0) :
    (mapPoints b data).length = ((data.map keyOf).toFinset).card
    ∧ (∀ p ∈ mapPoints true data, ∀ s n c, (s, n, c) ∈ p.species →
        n = (((data.filter (fun x => keyOf x = (p.lat, p.lng))).filter
            (fun x => x.commonName = s)).map (fun x => x.groupSize)).sum)
    ∧ ((mapPoints b data).map (fun p => p.totalCount)).sum =
        (data.map (fun d => d.groupSize)).sum := by
  have hfid :
      data.filter (fun d => truthyCoord d.latitude && truthyCoord d.longitude) = data :=
    List.filter_eq_self.mpr fun d hd => by
      simp [truthyCoord, (hco d hd).1, (hco d hd).2]
  have hinv := locations_inv data
  rw [hfid] at hinv
  obtain ⟨hnd, hkeys, hll, htot, hsp, hsum, hspnd⟩ := hinv
  refine ⟨?_, ?_, ?_⟩
  · have h1 : (mapPoints b data).length = ((locations data).map Prod.fst).length := by
      simp [mapPoints]
    have h3 : ((locations data).map Prod.fst).toFinset = (data.map keyOf).toFinset := by
      apply Finset.ext
      intro k
      rw [List.mem_toFinset, List.mem_toFinset]
      exact hkeys k
    rw [h1, ← List.toFinset_card_of_nodup hnd, h3]
  · intro p hp s n c hmem
    obtain ⟨q, hq, hqe⟩ := List.mem_map.mp hp
    subst hqe
    have hmem' : (s, n, c) ∈ q.2.species.map
        (fun r => (r.1, r.2, getSpeciesColor r.1)) := by
      simpa using hmem
    obtain ⟨r, hr, hre⟩ := List.mem_map.mp hmem'
    simp only [Prod.mk.injEq] at hre
    obtain ⟨hs1, hn1, -⟩ := hre
    subst hs1
    subst hn1
    have hq1 : ((q.2.lat, q.2.lng) : ℚ × ℚ) = q.1 := by
      rw [(hll q hq).1, (hll q hq).2]
    have hval : r.2 = sumGroup ((data.filter (fun x => keyOf x = q.1)).filter
        (fun x => x.commonName = r.1)) :=
      (assocGetD_of_mem (hspnd q hq) hr).symm.trans (hsp q hq r.1)
    have hsub : ∀ x ∈ (data.filter (fun x => keyOf x = q.1)).filter
        (fun x => x.commonName = r.1), x.groupSize ≠ 0 :=
      fun x hx => hg x (List.mem_of_mem_filter (List.mem_of_mem_filter hx))
    dsimp only
    simp only [hq1]
    rw [hval]
    exact sumGroup_eq_sum hsub
  · have hmapeq : (mapPoints b data).map (fun p => p.totalCount) =
        (locations data).map (fun p => p.2.totalCount) := by
      simp only [mapPoints, List.map_map]
      rfl
    rw [hmapeq, hsum]
    exact sumGroup_eq_sum hg

/-- A concrete record for the spec's clustering example. -/
def mkSampleRec (name : String) (g : Int) : ProcessedDetection :=
  { year := 2019
    commonName := name
    startTime := none
    groupSize := g
    latitude := mkRat 421 10
    longitude := mkRat (-845) 10
    hour := none
    month := none
    region := "South"
    arrayName := "SGA-1"
    sequenceId := ""
    deploymentId := "" }

/-- The spec's clustering example: two Deer detections (group sizes 2 and
3) and one Fox detection (group size 1), all at the same coordinates. -/
def sampleClusterData : List ProcessedDetection :=
  [mkSampleRec "Deer" 2, mkSampleRec "Deer" 3, mkSampleRec "Fox" 1]

/-- Closed instance of C4 on the spec's example collection, together with
the concrete per-species outcome (Deer 5, Fox 1, total 6 at one point). -/
theorem mapPoints_spec_witness :
    ((mapPoints true sampleClusterData).length =
        ((sampleClusterData.map keyOf).toFinset).card)
    ∧ ((mapPoints true sampleClusterData).map (fun p => p.totalCount)).sum =
        (sampleClusterData.map (fun d => d.groupSize)).sum
    ∧ (mapPoints true sampleClusterData).map
        (fun p => (p.species.map (fun q => (q.1, q.2.1)), p.totalCount)) =
      [([("Deer", 5), ("Fox", 1)], 6)] :=
  ⟨(mapPoints_spec true sampleClusterData (by decide) (by decide)).1,
   (mapPoints_spec true sampleClusterData (by decide) (by decide)).2.2,
   by decide⟩

/-! ## Array species table -/

/-- One row of the array species summary table. -/
structure ArrayRow where
  species : String
  totalGroupSize : Int
  distinctCameras : Nat
  totalCameras : Nat
  proportion : String
deriving DecidableEq, Repr

/-- `Set.add`: append if not yet present (insertion-ordered JavaScript
`Set`; only membership and size are observed). -/
def insertNew {α : Type} [DecidableEq α] (l : List α) (a : α) : List α :=
  if a ∈ l then l else l ++ [a]

/-- The per-species update of the `getArraySpeciesTable` fold:
`existing.totalGroupSize += d.groupSize; existing.cameras.add(key)` for a
known species (note: raw `d.groupSize`, no `|| 1` here), or a fresh entry
`{ totalGroupSize: d.groupSize, cameras: new Set([key]) }`. -/
def upsertSpeciesEntry :
    List (String × Int × List (ℚ × ℚ)) → String → Int → ℚ × ℚ →
      List (String × Int × List (ℚ × ℚ))
  | [], name, g, key => [(name, g, [key])]
  | (k, t, cams) :: rest, name, g, key =>
    if k = name then (k, t + g, insertNew cams key) :: rest
    else (k, t, cams) :: upsertSpeciesEntry rest name g key

/-- One record of the `getArraySpeciesTable` fold: record the location key
in the global camera set and update the species map. -/
def arrayStep (st : List (String × Int × List (ℚ × ℚ)) × List (ℚ × ℚ))
    (d : ProcessedDetection) :
    List (String × Int × List (ℚ × ℚ)) × List (ℚ × ℚ) :=
  (upsertSpeciesEntry st.1 d.commonName d.groupSize (keyOf d),
   insertNew st.2 (keyOf d))

/-- `(distinct / total * 100).toFixed(1)` modelled over exact rationals:
round half up to tenths (the ECMAScript `toFixed` rule on the exact value)
computed with natural division, then print with one fractional digit. -/
def proportionString (distinct total : Nat) : String :=
  toString ((2000 * distinct + total) / (2 * total) / 10) ++ "." ++
    toString ((2000 * distinct + total) / (2 * total) % 10)

/-- Specification-side proportion: the exact rational
`distinct / total * 100`, rounded half up to one decimal place and printed
with one fractional digit. -/
def proportionSpec (distinct total : Nat) : String :=
  toString (⌊(distinct : ℚ) / (total : ℚ) * 100 * 10 + 1 / 2⌋₊ / 10) ++ "." ++
    toString (⌊(distinct : ℚ) / (total : ℚ) * 100 * 10 + 1 / 2⌋₊ % 10)

/-- `getArraySpeciesTable`: per species the total group size, the count of
distinct cameras, the camera count of the whole slice and the proportion
string (`'0.0'` guard when the slice has no cameras), sorted descending by
total group size.  ECMAScript `sort` with the comparator
`(a, b) => b.totalGroupSize - a.totalGroupSize` is required to be stable
and sorted, which determines the result uniquely; the stable
`insertionSort` realizes that contract. -/
def getArraySpeciesTable (data : List ProcessedDetection) : List ArrayRow :=
  ((data.foldl arrayStep ([], [])).1.map (fun e =>
    { species := e.1
      totalGroupSize := e.2.1
      distinctCameras := e.2.2.length
      totalCameras := (data.foldl arrayStep ([], [])).2.length
      proportion :=
        if 0 < (data.foldl arrayStep ([], [])).2.length then
          proportionString e.2.2.length (data.foldl arrayStep ([], [])).2.length
        else "0.0" })).insertionSort
    (fun a b => b.totalGroupSize ≤ a.totalGroupSize)

theorem mem_insertNew {α : Type} [DecidableEq α] {l : List α} {a b : α} :
    b ∈ insertNew l a ↔ b ∈ l ∨ b = a := by
  by_cases hm : a ∈ l
  · simp only [insertNew, if_pos hm]
    constructor
    · exact Or.inl
    · rintro (h | rfl)
      · exact h
      · exact hm
  · simp only [insertNew, if_neg hm]
    simp

theorem nodup_insertNew {α : Type} [DecidableEq α] {l : List α} {a : α}
    (h : l.Nodup) : (insertNew l a).Nodup := by
  by_cases hm : a ∈ l
  · simpa only [insertNew, if_pos hm] using h
  · rw [insertNew, if_neg hm, List.nodup_append]
    refine ⟨h, List.nodup_singleton a, ?_⟩
    intro x hx hx1
    rw [List.mem_singleton] at hx1
    subst hx1
    exact hm hx

theorem arrayFold_cameras (data : List ProcessedDetection) :
    ∀ st : List (String × Int × List (ℚ × ℚ)) × List (ℚ × ℚ),
      st.2.Nodup →
      (data.foldl arrayStep st).2.Nodup
        ∧ (∀ k, k ∈ (data.foldl arrayStep st).2 ↔ k ∈ st.2 ∨ k ∈ data.map keyOf) := by
  induction data with
  | nil =>
    intro st h
    refine ⟨h, fun k => ?_⟩
    simp
  | cons d rest ih =>
    intro st h
    obtain ⟨hnd, hmem⟩ := ih (arrayStep st d) (nodup_insertNew h)
    refine ⟨hnd, fun k => ?_⟩
    rw [List.foldl_cons, hmem k]
    show k ∈ insertNew st.2 (keyOf d) ∨ _ ↔ _
    rw [mem_insertNew, List.map_cons, List.mem_cons]
    tauto

theorem mem_table {data : List ProcessedDetection} {row : ArrayRow}
    (h : row ∈ getArraySpeciesTable data) :
    row.totalCameras = (data.foldl arrayStep ([], [])).2.length
    ∧ row.proportion = (if 0 < row.totalCameras then
        proportionString row.distinctCameras row.totalCameras else "0.0")
    ∧ data ≠ [] := by
  unfold getArraySpeciesTable at h
  rw [(List.perm_insertionSort _ _).mem_iff] at h
  obtain ⟨e, he, hre⟩ := List.mem_map.mp h
  have hdata : data ≠ [] := by
    intro hd
    subst hd
    simp only [List.foldl_nil] at he
    exact List.not_mem_nil e he
  subst hre
  exact ⟨rfl, rfl, hdata⟩

theorem totalCameras_pos {data : List ProcessedDetection} (hne : data ≠ []) :
    0 < (data.foldl arrayStep ([], [])).2.length := by
  obtain ⟨d, hd⟩ := List.exists_mem_of_ne_nil data hne
  have h := (arrayFold_cameras data ([], []) (by simp)).2 (keyOf d)
  have hm : keyOf d ∈ (data.foldl arrayStep ([], [])).2 :=
    h.mpr (Or.inr (List.mem_map.mpr ⟨d, hd, rfl⟩))
  exact List.length_pos.mpr (List.ne_nil_of_mem hm)

theorem proportionString_self {t : Nat} (ht : 0 < t) :
    proportionString t t = "100.0" := by
  unfold proportionString
  have h : (2000 * t + t) / (2 * t) = 1000 := by
    apply Nat.div_eq_of_lt_le <;> omega
  rw [h]
  decide

theorem proportionString_eq_spec (d t : Nat) (ht : 0 < t) :
    proportionString d t = proportionSpec d t := by
  unfold proportionString proportionSpec
  have ht' : (t : ℚ) ≠ 0 := Nat.cast_ne_zero.mpr ht.ne'
  have hq : (d : ℚ) / (t : ℚ) * 100 * 10 + 1 / 2
      = ((2000 * d + t : ℕ) : ℚ) / ((2 * t : ℕ) : ℚ) := by
    have h2t : ((2 * t : ℕ) : ℚ) ≠ 0 := by
      push_cast
      intro hz
      apply ht'
      linarith
    field_simp
    ring
  rw [hq, Nat.floor_div_nat, Nat.floor_natCast]

/-- C6.  Every table row's proportion string is the spec's rounded value
`distinctCameras / totalCameras * 100` (one decimal, half-up) guarded by
`"0.0"` when the slice has no cameras; the denominator is the number of
distinct location keys of the whole slice; a slice with zero distinct
cameras yields only `"0.0"` proportions (vacuously — it has no rows) and
no division error; a species present at all cameras gets `"100.0"`; and
rows are sorted descending by total group size. -/
theorem arraySpeciesTable_spec :
    (∀ data : List ProcessedDetection, ∀ row ∈ getArraySpeciesTable data,
        row.proportion = if 0 < row.totalCameras then
          proportionSpec row.distinctCameras row.totalCameras else "0.0")
    ∧ (∀ data : List ProcessedDetection, ∀ row ∈ getArraySpeciesTable data,
        row.totalCameras = ((data.map keyOf).toFinset).card)
    ∧ (∀ data : List ProcessedDetection,
        ((data.map keyOf).toFinset).card = 0 →
        ∀ row ∈ getArraySpeciesTable data, row.proportion = "0.0")
    ∧ (∀ data : List ProcessedDetection, ∀ row ∈ getArraySpeciesTable data,
        row.distinctCameras = row.totalCameras → row.proportion = "100.0")
    ∧ (∀ data : List ProcessedDetection,
        (getArraySpeciesTable data).Sorted
          (fun a b => b.totalGroupSize ≤ a.totalGroupSize)) := by
  refine ⟨?_, ?_, ?_, ?_, ?_⟩
  · intro data row hrow
    obtain ⟨-, hprop, -⟩ := mem_table hrow
    rw [hprop]
    by_cases hpos : 0 < row.totalCameras
    · rw [if_pos hpos, if_pos hpos, proportionString_eq_spec _ _ hpos]
    · rw [if_neg hpos, if_neg hpos]
  · intro data row hrow
    have hc := arrayFold_cameras data ([], []) (by simp)
    have hfin : ((data.foldl arrayStep ([], [])).2).toFinset =
        (data.map keyOf).toFinset := by
      apply Finset.ext
      intro k
      rw [List.mem_toFinset, List.mem_toFinset, hc.2 k]
      simp
    rw [(mem_table hrow).1, ← List.toFinset_card_of_nodup hc.1, hfin]
  · intro data hcard row hrow
    obtain ⟨-, -, hne⟩ := mem_table hrow
    obtain ⟨d, hd⟩ := List.exists_mem_of_ne_nil data hne
    have hk : keyOf d ∈ (data.map keyOf).toFinset :=
      List.mem_toFinset.mpr (List.mem_map.mpr ⟨d, hd, rfl⟩)
    have := Finset.card_pos.mpr ⟨keyOf d, hk⟩
    omega
  · intro data row hrow heq
    obtain ⟨htc, hprop, hne⟩ := mem_table hrow
    have hpos : 0 < row.totalCameras := htc ▸ totalCameras_pos hne
    rw [hprop, if_pos hpos, heq, proportionString_self hpos]
  · intro data
    unfold getArraySpeciesTable
    haveI : IsTotal ArrayRow (fun a b => b.totalGroupSize ≤ a.totalGroupSize) :=
      ⟨fun a b => le_total b.totalGroupSize a.totalGroupSize⟩
    haveI : IsTrans ArrayRow (fun a b => b.totalGroupSize ≤ a.totalGroupSize) :=
      ⟨fun _ _ _ hab hbc => le_trans hbc hab⟩
    exact List.sorted_insertionSort _ _

/-- The Deer row the table produces on the sample cluster slice. -/
def sampleDeerRow : ArrayRow :=
  { species := "Deer"
    totalGroupSize := 5
    distinctCameras := 1
    totalCameras := 1
    proportion := "100.0" }

/-- Closed instance of C6: on the one-camera sample slice the Deer row is
present, detected at all cameras, and its proportion is `"100.0"`. -/
theorem arraySpeciesTable_spec_witness :
    sampleDeerRow ∈ getArraySpeciesTable sampleClusterData
    ∧ sampleDeerRow.proportion = "100.0" :=
  ⟨by decide,
   arraySpeciesTable_spec.2.2.2.1 sampleClusterData sampleDeerRow (by decide) (by decide)⟩

end Snapshot
